import Mathlib

/-!
Shallow embedding of the bit-manipulation notebook (tasks.ipynb).

The notebook defines five pure functions over Python integers
(arbitrary-precision signed integers):

  rotl x n  = ((x << n) | (x >> (32 - n))) & 0xFFFFFFFF   after  n %= 32
  rotr x n  = ((x >> n) | (x << (32 - n))) & 0xFFFFFFFF   after  n %= 32
  ch x y z  = (x & y) | ((~x) & z)
  maj x y z = (x & y) | (x & z) | (y & z)
  hash_function s = (fold of  hashval = ord(c) + 31 * hashval  over s) % 101

Python integers are embedded as Lean Int.  Python bitwise operators on
possibly negative integers follow the infinite twos-complement convention,
which is exactly the semantics of Int.land, Int.lor and Int.lnot; the
Python arithmetic shifts agree with the Int shift instances, and the Python
percent operator with a positive modulus agrees with Int.emod.
-/

/-- Embedding of the notebook function rotl: rotate the 32-bit pattern of x
left by n places.  The source first reduces n modulo 32 and finally masks
with 0xFFFFFFFF.  In the notebook n has default value 1; the default is
never used by the properties below, so the argument is kept explicit. -/
def rotl (x : Int) (n : Int) : Int :=
  let n := n % 32
  Int.land (Int.lor (x <<< n) (x >>> (32 - n))) 0xFFFFFFFF

/-- Embedding of the notebook function rotr: rotate the 32-bit pattern of x
right by n places, with the same modulo reduction and final mask. -/
def rotr (x : Int) (n : Int) : Int :=
  let n := n % 32
  Int.land (Int.lor (x >>> n) (x <<< (32 - n))) 0xFFFFFFFF

/-- Embedding of the notebook choice function: (x AND y) OR ((NOT x) AND z).
The source applies no final mask; the bitwise NOT of a Python integer is
Int.lnot. -/
def ch (x y z : Int) : Int :=
  Int.lor (Int.land x y) (Int.land (Int.lnot x) z)

/-- Embedding of the notebook majority function:
(x AND y) OR (x AND z) OR (y AND z), associated to the left as in Python. -/
def maj (x y z : Int) : Int :=
  Int.lor (Int.lor (Int.land x y) (Int.land x z)) (Int.land y z)

/-- Embedding of the notebook K and R style hash: fold
hashval = ord(c) + 31 * hashval over the characters of s, then reduce the
final accumulator modulo 101.  Char.toNat is the Unicode code point,
matching Python ord. -/
def hash_function (s : List Char) : Int :=
  (s.foldl (fun hashval c => (c.toNat : Int) + 31 * hashval) 0) % 101

/-- Modelled from the spec wording for the hash accumulator: initialize an
arbitrary-precision accumulator, then update it to ord(c) + 31 * acc for
each character c in left-to-right order.  Used only to compare the code
against the spec description. -/
def specHashAcc (acc : Int) : List Char → Int
  | [] => acc
  | c :: cs => specHashAcc ((c.toNat : Int) + 31 * acc) cs

/-- Nat-level form of rotl, used to reason about rotl on 32-bit inputs. -/
def rotlN (x n : Nat) : Nat :=
  ((x <<< (n % 32)) ||| (x >>> (32 - n % 32))) &&& 0xFFFFFFFF

/-- Nat-level form of rotr, used to reason about rotr on 32-bit inputs. -/
def rotrN (x n : Nat) : Nat :=
  ((x >>> (n % 32)) ||| (x <<< (32 - n % 32))) &&& 0xFFFFFFFF

/-- Int values with equal twos-complement bit streams are equal. -/
theorem intTestBit_ext {a b : Int} (h : ∀ i, a.testBit i = b.testBit i) : a = b := by
  cases a with
  | ofNat m =>
    cases b with
    | ofNat n =>
      exact congrArg Int.ofNat (Nat.eq_of_testBit_eq fun i => h i)
    | negSucc n =>
      exfalso
      have hm : m.testBit (max m n) = false :=
        Nat.testBit_lt_two_pow
          (lt_of_lt_of_le (Nat.lt_two_pow m) (Nat.pow_le_pow_right (by norm_num) (le_max_left m n)))
      have hn : n.testBit (max m n) = false :=
        Nat.testBit_lt_two_pow
          (lt_of_lt_of_le (Nat.lt_two_pow n) (Nat.pow_le_pow_right (by norm_num) (le_max_right m n)))
      have hcontra : m.testBit (max m n) = !n.testBit (max m n) := h (max m n)
      rw [hm, hn] at hcontra
      exact Bool.noConfusion hcontra
  | negSucc m =>
    cases b with
    | ofNat n =>
      exfalso
      have hm : m.testBit (max m n) = false :=
        Nat.testBit_lt_two_pow
          (lt_of_lt_of_le (Nat.lt_two_pow m) (Nat.pow_le_pow_right (by norm_num) (le_max_left m n)))
      have hn : n.testBit (max m n) = false :=
        Nat.testBit_lt_two_pow
          (lt_of_lt_of_le (Nat.lt_two_pow n) (Nat.pow_le_pow_right (by norm_num) (le_max_right m n)))
      have hcontra : (!m.testBit (max m n)) = n.testBit (max m n) := h (max m n)
      rw [hm, hn] at hcontra
      exact Bool.noConfusion hcontra
    | negSucc n =>
      refine congrArg Int.negSucc (Nat.eq_of_testBit_eq fun i => ?_)
      have := h i
      have h2 : (!m.testBit i) = !n.testBit i := this
      exact Bool.not_inj h2

/-- Int testBit of a natural number cast is the Nat testBit. -/
theorem testBit_coe (m : Nat) (i : Nat) : Int.testBit (↑m) i = m.testBit i := rfl

/-- Computation rule casting ch on nonnegative inputs down to Nat. -/
theorem ch_coe (x y z : Nat) :
    ch (↑x) (↑y) (↑z) = (((x &&& y) ||| Nat.ldiff z x : Nat) : Int) := rfl

/-- Computation rule casting maj on nonnegative inputs down to Nat. -/
theorem maj_coe (x y z : Nat) :
    maj (↑x) (↑y) (↑z) = ((((x &&& y) ||| (x &&& z)) ||| (y &&& z) : Nat) : Int) := rfl

/-- The cast of rotl on nonnegative inputs computes as rotlN. -/
theorem rotl_coe (x n : Nat) : rotl (↑x) (↑n) = ((rotlN x n : Nat) : Int) := by
  have hmod : ((n : Int) % 32) = ((n % 32 : Nat) : Int) := by
    rw [Int.natCast_mod]; rfl
  have hle : n % 32 ≤ 32 := le_of_lt (Nat.mod_lt n (by norm_num))
  have hsub : (32 : Int) - ((n % 32 : Nat) : Int) = ((32 - n % 32 : Nat) : Int) := by
    rw [Int.ofNat_sub hle]; rfl
  show Int.land (Int.lor ((↑x : Int) <<< ((↑n : Int) % 32))
      ((↑x : Int) >>> ((32 : Int) - (↑n : Int) % 32))) 0xFFFFFFFF = _
  rw [hmod, hsub, Int.shiftLeft_coe_nat, Int.shiftRight_coe_nat]
  rfl

/-- The cast of rotr on nonnegative inputs computes as rotrN. -/
theorem rotr_coe (x n : Nat) : rotr (↑x) (↑n) = ((rotrN x n : Nat) : Int) := by
  have hmod : ((n : Int) % 32) = ((n % 32 : Nat) : Int) := by
    rw [Int.natCast_mod]; rfl
  have hle : n % 32 ≤ 32 := le_of_lt (Nat.mod_lt n (by norm_num))
  have hsub : (32 : Int) - ((n % 32 : Nat) : Int) = ((32 - n % 32 : Nat) : Int) := by
    rw [Int.ofNat_sub hle]; rfl
  show Int.land (Int.lor ((↑x : Int) >>> ((↑n : Int) % 32))
      ((↑x : Int) <<< ((32 : Int) - (↑n : Int) % 32))) 0xFFFFFFFF = _
  rw [hmod, hsub, Int.shiftRight_coe_nat, Int.shiftLeft_coe_nat]
  rfl

/-- Both rotations land strictly below two to the 32 (final mask). -/
theorem rotlN_lt (x n : Nat) : rotlN x n < 2 ^ 32 :=
  lt_of_le_of_lt Nat.and_le_right (by decide)

/-- Same bound for the right rotation. -/
theorem rotrN_lt (x n : Nat) : rotrN x n < 2 ^ 32 :=
  lt_of_le_of_lt Nat.and_le_right (by decide)

/-- Bit characterization of rotlN on a 32-bit word, below bit 32. -/
theorem rotlN_testBit (x n : Nat) (hx : x < 2 ^ 32) (hn : n < 32) (i : Nat) (hi : i < 32) :
    (rotlN x n).testBit i = x.testBit ((i + (32 - n)) % 32) := by
  unfold rotlN
  rw [Nat.mod_eq_of_lt hn]
  rw [show (0xFFFFFFFF : Nat) = 2 ^ 32 - 1 from by decide, Nat.testBit_land,
    Nat.testBit_two_pow_sub_one, Nat.testBit_lor, Nat.testBit_shiftLeft, Nat.testBit_shiftRight]
  by_cases hni : n ≤ i
  · have e1 : (i + (32 - n)) % 32 = i - n := by omega
    have e2 : x.testBit (32 - n + i) = false :=
      Nat.testBit_lt_two_pow
        (lt_of_lt_of_le hx (Nat.pow_le_pow_right (by norm_num) (by omega)))
    rw [e1, e2]
    simp [ge_iff_le, hni, hi]
  · have e1 : (i + (32 - n)) % 32 = 32 - n + i := by omega
    rw [e1]
    simp [ge_iff_le, hni, hi]

/-- Bit characterization of rotrN on a 32-bit word, below bit 32. -/
theorem rotrN_testBit (x n : Nat) (hx : x < 2 ^ 32) (hn : n < 32) (i : Nat) (hi : i < 32) :
    (rotrN x n).testBit i = x.testBit ((i + n) % 32) := by
  unfold rotrN
  rw [Nat.mod_eq_of_lt hn]
  rw [show (0xFFFFFFFF : Nat) = 2 ^ 32 - 1 from by decide, Nat.testBit_land,
    Nat.testBit_two_pow_sub_one, Nat.testBit_lor, Nat.testBit_shiftLeft, Nat.testBit_shiftRight]
  by_cases hin : i + n < 32
  · have e1 : (i + n) % 32 = n + i := by omega
    have e2 : ¬ (32 - n ≤ i) := by omega
    rw [e1]
    simp [ge_iff_le, e2, hi]
  · have e1 : (i + n) % 32 = i - (32 - n) := by omega
    have e2 : x.testBit (n + i) = false :=
      Nat.testBit_lt_two_pow
        (lt_of_lt_of_le hx (Nat.pow_le_pow_right (by norm_num) (by omega)))
    have e3 : 32 - n ≤ i := by omega
    rw [e1, e2]
    simp [ge_iff_le, e3, hi]

/-- Right rotation undoes left rotation on 32-bit words. -/
theorem rotlrN_inverse (x n : Nat) (hx : x < 2 ^ 32) (hn : n < 32) :
    rotrN (rotlN x n) n = x := by
  apply Nat.eq_of_testBit_eq
  intro i
  by_cases hi : i < 32
  · rw [rotrN_testBit _ n (rotlN_lt x n) hn i hi,
      rotlN_testBit x n hx hn _ (Nat.mod_lt _ (by norm_num)),
      show ((i + n) % 32 + (32 - n)) % 32 = i by omega]
  · have h1 : (rotrN (rotlN x n) n).testBit i = false :=
      Nat.testBit_lt_two_pow
        (lt_of_lt_of_le (rotrN_lt _ n) (Nat.pow_le_pow_right (by norm_num) (by omega)))
    have h2 : x.testBit i = false :=
      Nat.testBit_lt_two_pow
        (lt_of_lt_of_le hx (Nat.pow_le_pow_right (by norm_num) (by omega)))
    rw [h1, h2]

/-- Left rotation undoes right rotation on 32-bit words. -/
theorem rotrlN_inverse (x n : Nat) (hx : x < 2 ^ 32) (hn : n < 32) :
    rotlN (rotrN x n) n = x := by
  apply Nat.eq_of_testBit_eq
  intro i
  by_cases hi : i < 32
  · rw [rotlN_testBit _ n (rotrN_lt x n) hn i hi,
      rotrN_testBit x n hx hn _ (Nat.mod_lt _ (by norm_num)),
      show ((i + (32 - n)) % 32 + n) % 32 = i by omega]
  · have h1 : (rotlN (rotrN x n) n).testBit i = false :=
      Nat.testBit_lt_two_pow
        (lt_of_lt_of_le (rotlN_lt _ n) (Nat.pow_le_pow_right (by norm_num) (by omega)))
    have h2 : x.testBit i = false :=
      Nat.testBit_lt_two_pow
        (lt_of_lt_of_le hx (Nat.pow_le_pow_right (by norm_num) (by omega)))
    rw [h1, h2]

/-- Bitwise or preserves a power-of-two bound. -/
theorem or_lt_two_pow {a b k : Nat} (ha : a < 2 ^ k) (hb : b < 2 ^ k) : a ||| b < 2 ^ k := by
  by_contra h
  push_neg at h
  obtain ⟨i, hik, hbit⟩ := Nat.ge_two_pow_implies_high_bit_true h
  rw [Nat.testBit_lor] at hbit
  have ha2 : a.testBit i = false :=
    Nat.testBit_lt_two_pow (lt_of_lt_of_le ha (Nat.pow_le_pow_right (by norm_num) hik))
  have hb2 : b.testBit i = false :=
    Nat.testBit_lt_two_pow (lt_of_lt_of_le hb (Nat.pow_le_pow_right (by norm_num) hik))
  rw [ha2, hb2] at hbit
  exact Bool.noConfusion hbit

/-- Bitwise difference respects a power-of-two bound on its first argument. -/
theorem ldiff_lt_two_pow {a k : Nat} (b : Nat) (ha : a < 2 ^ k) : Nat.ldiff a b < 2 ^ k := by
  by_contra h
  push_neg at h
  obtain ⟨i, hik, hbit⟩ := Nat.ge_two_pow_implies_high_bit_true h
  rw [Nat.testBit_ldiff] at hbit
  have ha2 : a.testBit i = false :=
    Nat.testBit_lt_two_pow (lt_of_lt_of_le ha (Nat.pow_le_pow_right (by norm_num) hik))
  rw [ha2] at hbit
  exact Bool.noConfusion hbit

/-- Evaluation rule for Nat.ldiff against a 32-bit first argument, in terms of
kernel-computable operations. -/
theorem ldiff_eval (z x : Nat) (hz : z < 2 ^ 32) :
    Nat.ldiff z x = z &&& (x ^^^ 0xFFFFFFFF) := by
  apply Nat.eq_of_testBit_eq
  intro i
  rw [Nat.testBit_ldiff, Nat.testBit_land, Nat.testBit_xor,
    show (0xFFFFFFFF : Nat) = 2 ^ 32 - 1 from by decide, Nat.testBit_two_pow_sub_one]
  by_cases hi : i < 32
  · simp [hi]
  · have hz2 : z.testBit i = false :=
      Nat.testBit_lt_two_pow (lt_of_lt_of_le hz (Nat.pow_le_pow_right (by norm_num) (by omega)))
    simp [hz2]

/-- Anything masked with 0xFFFFFFFF is a nonnegative 32-bit value, whatever
the sign and size of the input. -/
theorem land_mask_range (a : Int) :
    0 ≤ Int.land a 0xFFFFFFFF ∧ Int.land a 0xFFFFFFFF < 2 ^ 32 := by
  cases a with
  | ofNat m =>
    have e : Int.land (Int.ofNat m) 0xFFFFFFFF = ((m &&& 0xFFFFFFFF : Nat) : Int) := rfl
    rw [e]
    constructor
    · exact Int.natCast_nonneg _
    · exact_mod_cast lt_of_le_of_lt (Nat.and_le_right) (by decide : (0xFFFFFFFF : Nat) < 2 ^ 32)
  | negSucc m =>
    have e : Int.land (Int.negSucc m) 0xFFFFFFFF = ((Nat.ldiff 0xFFFFFFFF m : Nat) : Int) := rfl
    rw [e]
    constructor
    · exact Int.natCast_nonneg _
    · exact_mod_cast ldiff_lt_two_pow m (by decide : (0xFFFFFFFF : Nat) < 2 ^ 32)

/-- Per-bit reading of ch over arbitrary Int inputs. -/
theorem ch_testBit (x y z : Int) (i : Nat) :
    (ch x y z).testBit i = ((x.testBit i && y.testBit i) || (!x.testBit i && z.testBit i)) := by
  show (Int.lor (Int.land x y) (Int.land (Int.lnot x) z)).testBit i = _
  rw [Int.testBit_lor, Int.testBit_land, Int.testBit_land, Int.testBit_lnot]

/-- Per-bit reading of maj over arbitrary Int inputs. -/
theorem maj_testBit (x y z : Int) (i : Nat) :
    (maj x y z).testBit i =
      (((x.testBit i && y.testBit i) || (x.testBit i && z.testBit i))
        || (y.testBit i && z.testBit i)) := by
  show (Int.lor (Int.lor (Int.land x y) (Int.land x z)) (Int.land y z)).testBit i = _
  rw [Int.testBit_lor, Int.testBit_lor, Int.testBit_land, Int.testBit_land, Int.testBit_land]

/-- C2: hash_function computes the spec accumulator procedure (initialize 0,
update acc to ord(c) + 31 * acc left to right, reduce the final value mod
101); the result always lies in [0, 100] and the empty sequence hashes
to 0. -/
theorem hash_function_correct (s : List Char) :
    hash_function s = specHashAcc 0 s % 101 ∧
    0 ≤ hash_function s ∧ hash_function s ≤ 100 ∧
    hash_function [] = 0 := by
  have hfold : ∀ (t : List Char) (acc : Int),
      specHashAcc acc t = t.foldl (fun hashval c => (c.toNat : Int) + 31 * hashval) acc := by
    intro t
    induction t with
    | nil => intro acc; rfl
    | cons c cs ih => intro acc; exact ih _
  refine ⟨?_, ?_, ?_, by decide⟩
  · show (s.foldl (fun hashval c => (c.toNat : Int) + 31 * hashval) 0) % 101
      = specHashAcc 0 s % 101
    rw [hfold]
  · exact Int.emod_nonneg _ (by decide)
  · show (s.foldl (fun hashval c => (c.toNat : Int) + 31 * hashval) 0) % 101 ≤ 100
    have hlt := Int.emod_lt_of_pos
      (s.foldl (fun hashval c => (c.toNat : Int) + 31 * hashval) 0)
      (by decide : (0 : Int) < 101)
    omega

/-- C4: rotl normalizes its shift amount modulo 32, so rotating by n and by
n mod 32 agree for every integer n, negative or oversized included, and for
every integer word x. -/
theorem rotl_mod_normalize (x n : Int) : rotl x n = rotl x (n % 32) := by
  show Int.land (Int.lor (x <<< (n % 32)) (x >>> (32 - n % 32))) 0xFFFFFFFF
    = Int.land (Int.lor (x <<< (n % 32 % 32)) (x >>> (32 - n % 32 % 32))) 0xFFFFFFFF
  rw [Int.emod_emod_of_dvd n (dvd_refl 32)]

/-- C9: the six literal test vectors of the notebook reproduce exactly. -/
theorem literal_vectors :
    rotl 0x12345678 4 = 0x23456781 ∧ rotl 0x12345678 16 = 0x56781234 ∧
    rotr 0x12345678 4 = 0x81234567 ∧ rotr 0x12345678 16 = 0x56781234 ∧
    ch 0xFF00FF00 0xAAAAAAAA 0x55555555 = 0xAA55AA55 ∧
    maj 0xFF00FF00 0xAAAAAAAA 0x55555555 = 0xFF00FF00 := by
  refine ⟨by decide, by decide, by decide, by decide, ?_, by decide⟩
  rw [show (0xFF00FF00 : Int) = ((0xFF00FF00 : Nat) : Int) from rfl,
    show (0xAAAAAAAA : Int) = ((0xAAAAAAAA : Nat) : Int) from rfl,
    show (0x55555555 : Int) = ((0x55555555 : Nat) : Int) from rfl,
    ch_coe, ldiff_eval 0x55555555 0xFF00FF00 (by decide)]
  decide

/-- C10: for every integer x, negative or wider than 32 bits included, and
every integer n, the final mask keeps both rotation results inside
[0, 2 to the 32). -/
theorem rot_results_are_words (x n : Int) :
    (0 ≤ rotl x n ∧ rotl x n < 2 ^ 32) ∧ (0 ≤ rotr x n ∧ rotr x n < 2 ^ 32) :=
  ⟨land_mask_range _, land_mask_range _⟩

/-- C1: ch is the per-bit selector (bit i of the result equals bit i of y
when bit i of x is 1 and bit i of z otherwise), its value agrees with the
formula (x AND y) OR ((NOT x masked to 32 bits) AND z), and in particular
a zero selector returns z and an all-ones selector returns y. -/
theorem ch_selector (x y z : Int)
    (hx0 : 0 ≤ x) (hx : x < 2 ^ 32) (hy0 : 0 ≤ y) (hy : y < 2 ^ 32)
    (hz0 : 0 ≤ z) (hz : z < 2 ^ 32) :
    (∀ i, (ch x y z).testBit i
      = if x.testBit i = true then y.testBit i else z.testBit i) ∧
    ch x y z = Int.lor (Int.land x y) (Int.land (Int.land (Int.lnot x) 0xFFFFFFFF) z) ∧
    ch 0 y z = z ∧
    ch 0xFFFFFFFF y z = y := by
  obtain ⟨xn, rfl⟩ := Int.eq_ofNat_of_zero_le hx0
  obtain ⟨yn, rfl⟩ := Int.eq_ofNat_of_zero_le hy0
  obtain ⟨zn, rfl⟩ := Int.eq_ofNat_of_zero_le hz0
  have hyn : yn < 2 ^ 32 := by exact_mod_cast hy
  have hzn : zn < 2 ^ 32 := by exact_mod_cast hz
  have hmask : ∀ i, Int.testBit (0xFFFFFFFF : Int) i = decide (i < 32) := by
    intro i
    have e2 : Int.testBit (0xFFFFFFFF : Int) i = Nat.testBit 0xFFFFFFFF i := rfl
    rw [e2, show (0xFFFFFFFF : Nat) = 2 ^ 32 - 1 from by decide, Nat.testBit_two_pow_sub_one]
  have hzhigh : ∀ i, 32 ≤ i → Int.testBit (↑zn) i = false := by
    intro i hi
    rw [testBit_coe]
    exact Nat.testBit_lt_two_pow
      (lt_of_lt_of_le hzn (Nat.pow_le_pow_right (by norm_num) hi))
  have hyhigh : ∀ i, 32 ≤ i → Int.testBit (↑yn) i = false := by
    intro i hi
    rw [testBit_coe]
    exact Nat.testBit_lt_two_pow
      (lt_of_lt_of_le hyn (Nat.pow_le_pow_right (by norm_num) hi))
  refine ⟨?_, ?_, ?_, ?_⟩
  · intro i
    rw [ch_testBit]
    cases hxi : Int.testBit (↑xn) i <;> simp
  · apply intTestBit_ext
    intro i
    rw [ch_testBit]
    simp only [Int.testBit_lor, Int.testBit_land, Int.testBit_lnot, hmask]
    by_cases hi : i < 32
    · simp [hi]
    · rw [hzhigh i (by omega)]
      simp [hi]
  · apply intTestBit_ext
    intro i
    rw [ch_testBit]
    have h0 : Int.testBit (0 : Int) i = false := Nat.zero_testBit i
    rw [h0]
    simp
  · apply intTestBit_ext
    intro i
    rw [ch_testBit, hmask]
    by_cases hi : i < 32
    · simp [hi]
    · rw [hzhigh i (by omega), hyhigh i (by omega)]
      simp

/-- C3: on 32-bit words and shift amounts between 0 and 31, rotr undoes
rotl and rotl undoes rotr. -/
theorem rot_inverse (x n : Int) (hx0 : 0 ≤ x) (hx : x < 2 ^ 32)
    (hn0 : 0 ≤ n) (hn : n ≤ 31) :
    rotr (rotl x n) n = x ∧ rotl (rotr x n) n = x := by
  obtain ⟨xn, rfl⟩ := Int.eq_ofNat_of_zero_le hx0
  obtain ⟨nn, rfl⟩ := Int.eq_ofNat_of_zero_le hn0
  have hxn : xn < 2 ^ 32 := by exact_mod_cast hx
  have hnn : nn < 32 := by
    have h31 : (nn : Int) ≤ 31 := hn
    omega
  constructor
  · rw [rotl_coe, rotr_coe, rotlrN_inverse xn nn hxn hnn]
  · rw [rotr_coe, rotl_coe, rotrlN_inverse xn nn hxn hnn]

/-- C5: on 32-bit inputs every word-producing operation returns a value in
[0, 2 to the 32): both rotations for any shift amount, and ch and maj. -/
theorem word_results_32bit (x y z n : Int)
    (hx0 : 0 ≤ x) (hx : x < 2 ^ 32) (hy0 : 0 ≤ y) (hy : y < 2 ^ 32)
    (hz0 : 0 ≤ z) (hz : z < 2 ^ 32) :
    (0 ≤ rotl x n ∧ rotl x n < 2 ^ 32) ∧
    (0 ≤ rotr x n ∧ rotr x n < 2 ^ 32) ∧
    (0 ≤ ch x y z ∧ ch x y z < 2 ^ 32) ∧
    (0 ≤ maj x y z ∧ maj x y z < 2 ^ 32) := by
  obtain ⟨xn, rfl⟩ := Int.eq_ofNat_of_zero_le hx0
  obtain ⟨yn, rfl⟩ := Int.eq_ofNat_of_zero_le hy0
  obtain ⟨zn, rfl⟩ := Int.eq_ofNat_of_zero_le hz0
  have hyn : yn < 2 ^ 32 := by exact_mod_cast hy
  have hzn : zn < 2 ^ 32 := by exact_mod_cast hz
  refine ⟨land_mask_range _, land_mask_range _, ?_, ?_⟩
  · rw [ch_coe]
    refine ⟨Int.natCast_nonneg _, ?_⟩
    exact_mod_cast or_lt_two_pow (lt_of_le_of_lt Nat.and_le_right hyn)
      (ldiff_lt_two_pow xn hzn)
  · rw [maj_coe]
    refine ⟨Int.natCast_nonneg _, ?_⟩
    exact_mod_cast or_lt_two_pow
      (or_lt_two_pow (lt_of_le_of_lt Nat.and_le_right hyn)
        (lt_of_le_of_lt Nat.and_le_right hzn))
      (lt_of_le_of_lt Nat.and_le_right hzn)

/-- C6: maj is the per-bit majority vote (bit i of the result is 1 exactly
when at least two of the three inputs have bit i set), it is computed as
(x AND y) OR (x AND z) OR (y AND z), and two identical inputs force the
vote: maj x x z equals x. -/
theorem maj_vote (x y z : Int) :
    (∀ i, ((maj x y z).testBit i = true ↔
      2 ≤ cond (x.testBit i) 1 0 + cond (y.testBit i) 1 0
        + cond (z.testBit i) (1 : Nat) 0)) ∧
    maj x y z = Int.lor (Int.lor (Int.land x y) (Int.land x z)) (Int.land y z) ∧
    maj x x z = x := by
  refine ⟨?_, rfl, ?_⟩
  · intro i
    rw [maj_testBit]
    cases hbx : x.testBit i <;> cases hby : y.testBit i <;> cases hbz : z.testBit i <;> decide
  · apply intTestBit_ext
    intro i
    rw [maj_testBit]
    cases hbx : x.testBit i <;> cases hbz : z.testBit i <;> rfl

/-- C7: maj is invariant under every permutation of its three arguments,
while ch is not symmetric: swapping the selector with the z argument
changes the result at concrete 32-bit inputs. -/
theorem maj_symmetric_ch_not (x y z : Int) :
    (maj x y z = maj x z y ∧ maj x y z = maj y x z ∧ maj x y z = maj y z x ∧
      maj x y z = maj z x y ∧ maj x y z = maj z y x) ∧
    ch 0 0 1 ≠ ch 1 0 0 := by
  constructor
  · refine ⟨?_, ?_, ?_, ?_, ?_⟩ <;>
      (apply intTestBit_ext
       intro i
       rw [maj_testBit, maj_testBit]
       cases hbx : x.testBit i <;> cases hby : y.testBit i <;> cases hbz : z.testBit i <;> rfl)
  · rw [show (0 : Int) = ((0 : Nat) : Int) from rfl,
      show (1 : Int) = ((1 : Nat) : Int) from rfl, ch_coe, ch_coe,
      ldiff_eval 1 0 (by decide), ldiff_eval 0 1 (by decide)]
    decide

/-- C8: rotation by zero is the identity for both directions, and rotating
left by a full circle of 32 positions is also the identity. -/
theorem rot_zero_and_full (x : Int) (hx0 : 0 ≤ x) (hx : x < 2 ^ 32) :
    rotl x 0 = x ∧ rotr x 0 = x ∧ rotl x 32 = x := by
  obtain ⟨xn, rfl⟩ := Int.eq_ofNat_of_zero_le hx0
  have hxn : xn < 2 ^ 32 := by exact_mod_cast hx
  have hhigh : ∀ i, ¬ i < 32 → xn.testBit i = false := by
    intro i hi
    exact Nat.testBit_lt_two_pow
      (lt_of_lt_of_le hxn (Nat.pow_le_pow_right (by norm_num) (by omega)))
  have hl0 : rotlN xn 0 = xn := by
    apply Nat.eq_of_testBit_eq
    intro i
    by_cases hi : i < 32
    · rw [rotlN_testBit xn 0 hxn (by norm_num) i hi,
        show (i + (32 - 0)) % 32 = i by omega]
    · rw [Nat.testBit_lt_two_pow
        (lt_of_lt_of_le (rotlN_lt xn 0) (Nat.pow_le_pow_right (by norm_num) (by omega))),
        hhigh i hi]
  have hr0 : rotrN xn 0 = xn := by
    apply Nat.eq_of_testBit_eq
    intro i
    by_cases hi : i < 32
    · rw [rotrN_testBit xn 0 hxn (by norm_num) i hi, show (i + 0) % 32 = i by omega]
    · rw [Nat.testBit_lt_two_pow
        (lt_of_lt_of_le (rotrN_lt xn 0) (Nat.pow_le_pow_right (by norm_num) (by omega))),
        hhigh i hi]
  refine ⟨?_, ?_, ?_⟩
  · have e := rotl_coe xn 0
    rw [hl0] at e
    exact e
  · have e := rotr_coe xn 0
    rw [hr0] at e
    exact e
  · have e := rotl_coe xn 32
    have h32 : rotlN xn 32 = rotlN xn 0 := rfl
    rw [h32, hl0] at e
    exact e

/-- Witness instantiating ch_selector at the notebook sample inputs. -/
theorem ch_selector_witness :
    ((0 : Int) ≤ 0xF0F0F0F0 ∧ (0xF0F0F0F0 : Int) < 2 ^ 32 ∧
      (0 : Int) ≤ 0xAAAAAAAA ∧ (0xAAAAAAAA : Int) < 2 ^ 32 ∧
      (0 : Int) ≤ 0x55555555 ∧ (0x55555555 : Int) < 2 ^ 32) ∧
    ((∀ i, (ch 0xF0F0F0F0 0xAAAAAAAA 0x55555555).testBit i
        = if (0xF0F0F0F0 : Int).testBit i = true
          then (0xAAAAAAAA : Int).testBit i else (0x55555555 : Int).testBit i) ∧
      ch 0xF0F0F0F0 0xAAAAAAAA 0x55555555
        = Int.lor (Int.land 0xF0F0F0F0 0xAAAAAAAA)
            (Int.land (Int.land (Int.lnot 0xF0F0F0F0) 0xFFFFFFFF) 0x55555555) ∧
      ch 0 0xAAAAAAAA 0x55555555 = 0x55555555 ∧
      ch 0xFFFFFFFF 0xAAAAAAAA 0x55555555 = 0xAAAAAAAA) :=
  ⟨⟨by decide, by decide, by decide, by decide, by decide, by decide⟩,
    ch_selector 0xF0F0F0F0 0xAAAAAAAA 0x55555555
      (by decide) (by decide) (by decide) (by decide) (by decide) (by decide)⟩

/-- Witness instantiating rot_inverse at a notebook sample input. -/
theorem rot_inverse_witness :
    ((0 : Int) ≤ 0x12345678 ∧ (0x12345678 : Int) < 2 ^ 32 ∧
      (0 : Int) ≤ 4 ∧ (4 : Int) ≤ 31) ∧
    (rotr (rotl 0x12345678 4) 4 = 0x12345678 ∧
      rotl (rotr 0x12345678 4) 4 = 0x12345678) :=
  ⟨⟨by decide, by decide, by decide, by decide⟩,
    rot_inverse 0x12345678 4 (by decide) (by decide) (by decide) (by decide)⟩

/-- Witness instantiating word_results_32bit at notebook sample inputs. -/
theorem word_results_32bit_witness :
    ((0 : Int) ≤ 0x12345678 ∧ (0x12345678 : Int) < 2 ^ 32 ∧
      (0 : Int) ≤ 0xABCDEF01 ∧ (0xABCDEF01 : Int) < 2 ^ 32 ∧
      (0 : Int) ≤ 0x55555555 ∧ (0x55555555 : Int) < 2 ^ 32) ∧
    ((0 ≤ rotl 0x12345678 4 ∧ rotl 0x12345678 4 < 2 ^ 32) ∧
      (0 ≤ rotr 0x12345678 4 ∧ rotr 0x12345678 4 < 2 ^ 32) ∧
      (0 ≤ ch 0x12345678 0xABCDEF01 0x55555555 ∧
        ch 0x12345678 0xABCDEF01 0x55555555 < 2 ^ 32) ∧
      (0 ≤ maj 0x12345678 0xABCDEF01 0x55555555 ∧
        maj 0x12345678 0xABCDEF01 0x55555555 < 2 ^ 32)) :=
  ⟨⟨by decide, by decide, by decide, by decide, by decide, by decide⟩,
    word_results_32bit 0x12345678 0xABCDEF01 0x55555555 4
      (by decide) (by decide) (by decide) (by decide) (by decide) (by decide)⟩

/-- Witness instantiating rot_zero_and_full at a notebook sample input. -/
theorem rot_zero_and_full_witness :
    ((0 : Int) ≤ 0x12345678 ∧ (0x12345678 : Int) < 2 ^ 32) ∧
    (rotl 0x12345678 0 = 0x12345678 ∧ rotr 0x12345678 0 = 0x12345678 ∧
      rotl 0x12345678 32 = 0x12345678) :=
  ⟨⟨by decide, by decide⟩, rot_zero_and_full 0x12345678 (by decide) (by decide)⟩
